import Mathlib

/-!
# Verification of the USERS-CREDENTIALS credential registry

Shallow embedding of the credential registry:

* `CredentialTypeFactory.sol` — catalog of named credential types (name
  validation, dense ids);
* `CredentialManager.sol` — assignment ledger, published Merkle root, and
  on-chain proof verification (OpenZeppelin `MerkleProof.verify`);
* `src/helpers/merkleTree.ts` — the off-chain accumulator built with
  OpenZeppelin `StandardMerkleTree` (lazy-loaded cache + JSON file);
* `src/controllers/credentialManagerController.ts` — the sync path
  (assign, rebuild tree, republish root) and proof-based verification.

Hashing model: `keccak256` is modelled symbolically, as a free constructor
term (a collision-free idealization).  `HashVal.leafHash u t` stands for the
double hash `keccak256(bytes.concat(keccak256(abi.encode(user, id))))`,
which is bit-identical between the Solidity side and the
`StandardMerkleTree` leaf hash for the encoding `["address", "uint256"]`.
`HashVal.nodeHash` stands for the sorted-pair inner-node hash used both by
OpenZeppelin `MerkleProof._hashPair` and by the JS library, and
`HashVal.raw n` stands for an arbitrary 32-byte word (in particular
`HashVal.raw 0` is the all-zero `bytes32`, the initial unpublished root).
Addresses and uint256 values are modelled as `Nat`.
-/

inductive HashVal : Type where
  | leafHash (user : Nat) (credentialTypeId : Nat) : HashVal
  | nodeHash (a b : HashVal) : HashVal
  | raw (n : Nat) : HashVal
deriving DecidableEq, Repr

/-- Injective numeric code for hash values; it plays the role of the
numeric value of the 32 bytes of a hash, used only for the sorted-pair
ordering of `_hashPair` / `compareBytes`. -/
def HashVal.code : HashVal → Nat
  | .leafHash u t => Nat.pair 0 (Nat.pair u t)
  | .nodeHash a b => Nat.pair 1 (Nat.pair a.code b.code)
  | .raw n => Nat.pair 2 n

/-- The commutative (sorted) pair hash:
`keccak256(abi.encodePacked(min(a,b), max(a,b)))`, exactly as in
OpenZeppelin Solidity `MerkleProof._hashPair` and in the JS library
`hashPair` (which sorts the two child hashes before hashing). -/
def hashPair (a b : HashVal) : HashVal :=
  if a.code ≤ b.code then .nodeHash a b else .nodeHash b a

/-! ## OpenZeppelin `MerkleProof` (Solidity library used by the contract)

`processProof` folds the commutative pair hash over the proof starting
from the leaf; `verify` compares the result with the root. -/
namespace MerkleProof

def processProof (proof : List HashVal) (leaf : HashVal) : HashVal :=
  proof.foldl hashPair leaf

def verify (proof : List HashVal) (root : HashVal) (leaf : HashVal) : Bool :=
  processProof proof leaf == root

end MerkleProof

/-! ## Contract state

`CMState` merges the storage of the deployed `CredentialTypeFactory` and
`CredentialManager` (the manager holds an immutable reference to the
factory).  A credential type is a pair `(id, name)` where the name is the
byte string of the Solidity `string`. -/
structure CMState where
  /-- `CredentialTypeFactory.maxNameLength`. -/
  maxNameLength : Nat
  /-- `CredentialTypeFactory.credentialTypes`, in creation order. -/
  credentialTypes : List (Nat × List Nat)
  /-- The `Ownable` owner of the `CredentialManager` (the authority). -/
  owner : Nat
  /-- `CredentialManager.merkleRoot`; `bytes32(0)` before any publish. -/
  merkleRoot : HashVal
  /-- `CredentialManager.userCredentials` membership mapping. -/
  userCredentials : Nat → Nat → Bool
  /-- `CredentialManager.userCredentialList` per-user ordered id list. -/
  userCredentialList : Nat → List Nat

/-- Reason component of the factory's name-validation reverts, one
constructor per `require` message of the `validCredentialTypeName`
modifier:
`empty` ↦ "Credential name cannot be empty",
`tooLong` ↦ "Credential name exceeds character limit",
`notAscii` ↦ "Credential name must be ASCII",
`taken` ↦ "Credential name must be unique". -/
inductive NameErr : Type where
  | empty | tooLong | notAscii | taken
deriving DecidableEq, Repr

/-- Revert taxonomy of the two contracts:
`unauthorized` ↦ `OwnableUnauthorizedAccount`,
`nameInvalid r` ↦ the name-validation revert with reason `r`,
`unknownCredentialType` ↦ "Invalid credential type ID",
`duplicateAssignment` ↦ "Credential already assigned". -/
inductive CMErr : Type where
  | unauthorized
  | nameInvalid (r : NameErr)
  | unknownCredentialType
  | duplicateAssignment
deriving DecidableEq, Repr

/-- `CredentialTypeFactory._isAscii`: every byte of the string is ≤ 127. -/
def _isAscii (byteStr : List Nat) : Bool :=
  byteStr.all (fun b => b ≤ 127)

/-- `CredentialTypeFactory._isNameTaken`.  The source compares the
`keccak256` of the candidate with the `keccak256` of each stored name;
under the collision-free hash model this is byte-string equality. -/
def _isNameTaken (st : CMState) (name : List Nat) : Bool :=
  st.credentialTypes.any (fun ct => ct.2 = name)

/-- The `validCredentialTypeName` modifier of `CredentialTypeFactory`,
returning the reason of the first failing `require` (in source order:
non-empty, then length ≤ `maxNameLength`, then ASCII, then uniqueness),
or `none` when the name is accepted. -/
def validCredentialTypeName (st : CMState) (name : List Nat) :
    Option NameErr :=
  if name.length = 0 then some .empty
  else if ¬ name.length ≤ st.maxNameLength then some .tooLong
  else if ¬ _isAscii name then some .notAscii
  else if _isNameTaken st name then some .taken
  else none

/-- `CredentialTypeFactory.createCredentialType` (externally callable on
the factory with no access control): validates the name then appends
`(credentialTypes.length, name)`. -/
def createCredentialType (st : CMState) (name : List Nat) :
    Except CMErr CMState :=
  match validCredentialTypeName st name with
  | some r => .error (.nameInvalid r)
  | none =>
      .ok { st with
        credentialTypes :=
          st.credentialTypes ++ [(st.credentialTypes.length, name)] }

/-- `CredentialManager.createCredentialType`: `onlyOwner`, then delegates
to the factory. -/
def managerCreateCredentialType (caller : Nat) (name : List Nat)
    (st : CMState) : Except CMErr CMState :=
  if caller ≠ st.owner then .error .unauthorized
  else createCredentialType st name

/-- Modelled from the spec: `CredentialTypeFactory.isValidCredentialTypeId`
is called by `CredentialManager.assignCredential` but its definition is
absent from the repository sources (the factory only defines the
`validCredentiaTypelId` modifier, which checks `_id < credentialTypes.length`
with the same revert message).  The spec defines
`exists(id) -> boolean`: `id < catalog.size`. -/
def isValidCredentialTypeId (st : CMState) (id : Nat) : Bool :=
  id < st.credentialTypes.length

/-- `CredentialTypeFactory.getCredentialType`, guarded by the
`validCredentiaTypelId` modifier. -/
def getCredentialType (st : CMState) (id : Nat) :
    Except CMErr (Nat × List Nat) :=
  if h : id < st.credentialTypes.length then
    .ok (st.credentialTypes.get ⟨id, h⟩)
  else .error .unknownCredentialType

/-- `CredentialManager.getUserCredentialsTypes`: resolves each id of
`userCredentialList[user]` through the factory (any invalid id would
revert the whole call). -/
def getUserCredentialsTypes (st : CMState) (user : Nat) :
    Except CMErr (List (Nat × List Nat)) :=
  (st.userCredentialList user).mapM (getCredentialType st)

/-- `CredentialManager.assignCredential`: `onlyOwner`, then the
`validAssignment` modifier (type must exist, pair must be new), then the
two storage writes. -/
def assignCredential (caller user credentialTypeId : Nat) (st : CMState) :
    Except CMErr CMState :=
  if caller ≠ st.owner then .error .unauthorized
  else if ¬ isValidCredentialTypeId st credentialTypeId then
    .error .unknownCredentialType
  else if st.userCredentials user credentialTypeId then
    .error .duplicateAssignment
  else
    .ok { st with
      userCredentials := fun u t =>
        if u = user ∧ t = credentialTypeId then true
        else st.userCredentials u t,
      userCredentialList := fun u =>
        if u = user then st.userCredentialList u ++ [credentialTypeId]
        else st.userCredentialList u }

/-- `CredentialManager.setMerkleRoot`: `onlyOwner`, then overwrite the
stored root. -/
def setMerkleRoot (caller : Nat) (newRoot : HashVal) (st : CMState) :
    Except CMErr CMState :=
  if caller ≠ st.owner then .error .unauthorized
  else .ok { st with merkleRoot := newRoot }

/-- The leaf the contract derives in `verifyCredential`:
`keccak256(bytes.concat(keccak256(abi.encode(_user, _credentialTypeId))))`. -/
def credLeaf (user credentialTypeId : Nat) : HashVal :=
  .leafHash user credentialTypeId

/-- `CredentialManager.verifyCredential`: ledger membership AND Merkle
proof validity against the stored root. -/
def verifyCredential (st : CMState) (user credentialTypeId : Nat)
    (merkleProof : List HashVal) : Bool :=
  st.userCredentials user credentialTypeId &&
    MerkleProof.verify merkleProof st.merkleRoot
      (credLeaf user credentialTypeId)

/-! ## Transactions and reachable states

A reverted transaction leaves the contract storage unchanged. -/
inductive CMOp : Type where
  | create (caller : Nat) (name : List Nat)
  | assign (caller user credentialTypeId : Nat)
  | setRoot (caller : Nat) (root : HashVal)

def execOp (st : CMState) (op : CMOp) : Except CMErr CMState :=
  match op with
  | .create caller name => managerCreateCredentialType caller name st
  | .assign caller user tid => assignCredential caller user tid st
  | .setRoot caller root => setMerkleRoot caller root st

def stepOp (st : CMState) (op : CMOp) : CMState :=
  match execOp st op with
  | .ok st' => st'
  | .error _ => st

def runOps (st : CMState) (ops : List CMOp) : CMState :=
  ops.foldl stepOp st

/-- Freshly deployed pair of contracts: empty catalog, no assignments,
root `bytes32(0)` (the constructor of the factory requires
`maxNameLength > 0`). -/
def initState (owner maxNameLength : Nat) : CMState :=
  { maxNameLength := maxNameLength
    credentialTypes := []
    owner := owner
    merkleRoot := .raw 0
    userCredentials := fun _ _ => false
    userCredentialList := fun _ => [] }

/-- `true` when no operation of the list is a `setMerkleRoot` transaction
sent by `o` (so a run from a state owned by `o` never publishes a root). -/
def noPublish (o : Nat) (ops : List CMOp) : Bool :=
  ops.all (fun op =>
    match op with
    | .setRoot c _ => c ≠ o
    | _ => true)

/-- The `StandardMerkleTree` leaf hash of one entry — bit-identical to the
contract-side `credLeaf`. -/
def standardLeafHash (e : Nat × Nat) : HashVal :=
  .leafHash e.1 e.2

/-- Insert into a list of (value index, leaf hash) pairs sorted by hash. -/
def insertHashed (p : Nat × HashVal) :
    List (Nat × HashVal) → List (Nat × HashVal)
  | [] => [p]
  | q :: qs =>
      if p.2.code ≤ q.2.code then p :: q :: qs else q :: insertHashed p qs

/-- Sort (value index, leaf hash) pairs by leaf hash. -/
def sortHashed : List (Nat × HashVal) → List (Nat × HashVal)
  | [] => []
  | p :: ps => insertHashed p (sortHashed ps)

/-- The hashed leaves of the entry list, each tagged with its value index,
sorted by hash as `StandardMerkleTree.of` does. -/
def sortedPairs (values : List (Nat × Nat)) : List (Nat × HashVal) :=
  sortHashed ((values.map standardLeafHash).enum)

/-- The sorted leaf hashes. -/
def sortedLeaves (values : List (Nat × Nat)) : List HashVal :=
  (sortedPairs values).map Prod.snd

/-- Node `j` of the flat-array tree over the given sorted leaves, computed
with explicit fuel so that the definition reduces in the kernel.  Leaves
occupy indices `n - 1 … 2*n - 2` (node `j` with `n ≤ j + 1` is the sorted
leaf `2*n - 2 - j`); every other node hashes its two children. -/
def treeNodeF (leaves : List HashVal) : Nat → Nat → HashVal
  | 0, _ => .raw 0
  | fuel + 1, j =>
      if leaves.length ≤ j + 1 then
        leaves.getD (2 * leaves.length - 2 - j) (.raw 0)
      else
        hashPair (treeNodeF leaves fuel (2 * j + 1))
          (treeNodeF leaves fuel (2 * j + 2))

/-- Node `j` of the tree over `leaves` (canonical fuel). -/
def treeNode (leaves : List HashVal) (j : Nat) : HashVal :=
  treeNodeF leaves (leaves.length + 1) j

/-- The root of `StandardMerkleTree.of(values, ["address", "uint256"])`
(`tree.root`, i.e. node `0`). -/
def rootOfValues (values : List (Nat × Nat)) : HashVal :=
  treeNode (sortedLeaves values) 0

/-- Sibling-path extraction (`tree.getProof` walking from a tree index up
to the root), with explicit fuel. -/
def proofFromF (leaves : List HashVal) : Nat → Nat → List HashVal
  | 0, _ => []
  | fuel + 1, j =>
      if j = 0 then []
      else
        let sib := if j % 2 = 1 then j + 1 else j - 1
        treeNode leaves sib :: proofFromF leaves fuel ((j - 1) / 2)

def proofFrom (leaves : List HashVal) (j : Nat) : List HashVal :=
  proofFromF leaves (j + 1) j

/-- The tree index stored for value index `i`: `2*n - 2 - p` where `p` is
the position of that value's leaf in the sorted order. -/
def treeIndexOfValue (values : List (Nat × Nat)) (i : Nat) : Nat :=
  2 * values.length - 2 -
    (sortedPairs values).findIdx (fun q => q.1 = i)

/-- `tree.getProof(i)` for value index `i` of the tree over `values`. -/
def getProofOfValues (values : List (Nat × Nat)) (i : Nat) : List HashVal :=
  proofFrom (sortedLeaves values) (treeIndexOfValue values i)

/-! ## `src/helpers/merkleTree.ts` state

The module state is the lazily loaded variable `merkleTree` (the cache)
and the JSON file `merkleTree.json`; both are determined by the ordered
entry list they store (`StandardMerkleTree.dump`/`load` preserve the
values list and `StandardMerkleTree.of` rebuilds everything else from
it), so each is modelled as an optional entry list. -/
structure MTState where
  /-- The module-level `merkleTree` variable (`null` before first load). -/
  cache : Option (List (Nat × Nat))
  /-- The contents of `merkleTree.json` (`none` when the file does not
  exist). -/
  file : Option (List (Nat × Nat))
deriving DecidableEq, Repr

/-- Errors thrown by the helper and the tree library:
`notInitialized` ↦ "Merkle tree not initialized.",
`rootNotInitialized` ↦ "Merkle root not initialized.",
`entryExists` ↦ "Entry already exists in the Merkle tree.",
`indexOutOfBounds` ↦ the library error for an unknown value index. -/
inductive MTErr : Type where
  | notInitialized | rootNotInitialized | entryExists | indexOutOfBounds
deriving DecidableEq, Repr

/-- `loadMerkleTree()`: if the JSON file exists and the cache is empty,
load the file into the cache; return the cached tree (possibly `null`). -/
def loadMerkleTree (s : MTState) : Option (List (Nat × Nat)) × MTState :=
  match s.file, s.cache with
  | some v, none => (some v, { s with cache := some v })
  | _, _ => (s.cache, s)

/-- `updateMerkleTree(user, credentialTypeId)`: load; if a tree exists,
reject a duplicate entry (comparing user and stringified id, i.e. pair
equality) before rebuilding from `values ++ [newValue]`; otherwise start
a tree with the single entry; finally write the dump to the file.  A
thrown error carries the module state at the throw point. -/
def updateMerkleTree (user credentialTypeId : Nat) (s : MTState) :
    Except (MTErr × MTState) MTState :=
  match loadMerkleTree s with
  | (some values, s1) =>
      if (values.any (fun e => e.1 = user ∧ e.2 = credentialTypeId)) then
        .error (.entryExists, s1)
      else
        let values2 := values ++ [(user, credentialTypeId)]
        .ok { cache := some values2, file := some values2 }
  | (none, _) =>
      .ok { cache := some [(user, credentialTypeId)],
            file := some [(user, credentialTypeId)] }

/-- `getMerkleRoot()`: load, then return `tree.root`. -/
def getMerkleRoot (s : MTState) :
    Except (MTErr × MTState) (HashVal × MTState) :=
  match loadMerkleTree s with
  | (some values, s1) => .ok (rootOfValues values, s1)
  | (none, s1) => .error (.rootNotInitialized, s1)

/-- `getProof(credentialTypeId)`: load, then `tree.getProof(id)` — note
the id is passed to the library as a *value index* into the entry list. -/
def getProof (credentialTypeId : Nat) (s : MTState) :
    Except (MTErr × MTState) (List HashVal × MTState) :=
  match loadMerkleTree s with
  | (some values, s1) =>
      if credentialTypeId < values.length then
        .ok (getProofOfValues values credentialTypeId, s1)
      else .error (.indexOutOfBounds, s1)
  | (none, s1) => .error (.notInitialized, s1)

/-! ## `credentialManagerController.ts` — the sync path

The controller signs every contract call with the backend wallet, which
is the contract owner (the authority); the missing `contractService`
module only supplies that signer, so the caller of each modelled contract
call is `st.owner` (modelled from the spec: the authority operates the
service). -/
structure SysState where
  cm : CMState
  mt : MTState

inductive SysErr : Type where
  | contractErr (e : CMErr)
  | treeErr (e : MTErr)
deriving DecidableEq, Repr

/-- `assignCredential(userAddress, credentialTypeId)` of the controller:
contract `assignCredential`, then `updateMerkleTree`, then `getMerkleRoot`
and contract `setMerkleRoot`.  (On a thrown error the work done so far is
kept on chain / on disk; the error result here reports only the error, as
the claims under verification only concern completed runs and the helper
level state, which `updateMerkleTree` reports itself.) -/
def controllerAssignCredential (user credentialTypeId : Nat)
    (s : SysState) : Except SysErr SysState :=
  match assignCredential s.cm.owner user credentialTypeId s.cm with
  | .error e => .error (.contractErr e)
  | .ok cm1 =>
      match updateMerkleTree user credentialTypeId s.mt with
      | .error (e, _) => .error (.treeErr e)
      | .ok mt1 =>
          match getMerkleRoot mt1 with
          | .error (e, _) => .error (.treeErr e)
          | .ok (root, mt2) =>
              match setMerkleRoot cm1.owner root cm1 with
              | .error e => .error (.contractErr e)
              | .ok cm2 => .ok { cm := cm2, mt := mt2 }

/-- `verifyCredential(userAddress, credentialTypeId)` of the controller:
fetch the proof with `getProof(credentialTypeId)` and call the contract's
`verifyCredential`. -/
def controllerVerifyCredential (user credentialTypeId : Nat)
    (s : SysState) : Except SysErr Bool :=
  match getProof credentialTypeId s.mt with
  | .error (e, _) => .error (.treeErr e)
  | .ok (proof, _) =>
      .ok (verifyCredential s.cm user credentialTypeId proof)

/-- Modelled from the spec: the `reconcile()` operation of the
SyncCoordinator is described in the spec (§4.5) but absent from the
repository sources.  Following the spec's words, it re-derives the full
ordered record list from the authoritative ledger (supplied here as the
`records` argument by the ledger collaborator's `listAllRecords()`),
rebuilds the accumulator from scratch with the repository's rebuild
(`StandardMerkleTree.of` over the record list), persists it, and
publishes the resulting root with the contract's `setMerkleRoot` (as the
authority).  Returns the published root. -/
def reconcile (records : List (Nat × Nat)) (s : SysState) :
    Except SysErr (HashVal × SysState) :=
  let root := rootOfValues records
  match setMerkleRoot s.cm.owner root s.cm with
  | .error e => .error (.contractErr e)
  | .ok cm1 =>
      .ok (root, { cm := cm1,
                   mt := { cache := some records, file := some records } })

/-- The leaf list ("the leaves") of the rebuilt accumulator for a record
list: the sorted hashed leaves of the tree. -/
def leavesOfRecords (records : List (Nat × Nat)) : List HashVal :=
  sortedLeaves records

/-- The stored name of catalog entry `t` (default irrelevant: used only
at valid indices). -/
def nameOf (st : CMState) (t : Nat) : List Nat :=
  (st.credentialTypes.getD t (0, [])).2

/-- The ledger/catalog invariant: per-user list and membership map agree,
lists are duplicate-free, every listed id is a valid catalog index, and
catalog entry `i` carries id `i`. -/
def ledgerInv (st : CMState) : Prop :=
  (∀ u, (st.userCredentialList u).Nodup) ∧
  (∀ u t, t ∈ st.userCredentialList u ↔ st.userCredentials u t = true) ∧
  (∀ u t, t ∈ st.userCredentialList u → t < st.credentialTypes.length) ∧
  (∀ i (h : i < st.credentialTypes.length),
    (st.credentialTypes.get ⟨i, h⟩).1 = i)

/-- Round-trip scenario start: authority 9, `maxNameLength` 100, types
"A" (id 0) and "B" (id 1) created, empty accumulator. -/
def c2Start : SysState :=
  { cm := stepOp (stepOp (initState 9 100) (CMOp.create 9 [65]))
      (CMOp.create 9 [66]),
    mt := { cache := none, file := none } }

/-- Controller run assigning (user 5, type 1) then (user 5, type 0):
entry indices and type ids end up swapped. -/
def c2Run : Except SysErr SysState :=
  (controllerAssignCredential 5 1 c2Start).bind
    (fun s => controllerAssignCredential 5 0 s)

/-- The system state after `c2Run` (which succeeds). -/
def c2Final : SysState :=
  match c2Run with
  | .ok s => s
  | .error _ => c2Start

/-- Controller run assigning (user 5, type 0) then (user 5, type 1):
each entry index equals its type id. -/
def c2GoodRun : Except SysErr SysState :=
  (controllerAssignCredential 5 0 c2Start).bind
    (fun s => controllerAssignCredential 5 1 s)

/-- The system state after `c2GoodRun` (which succeeds). -/
def c2Good : SysState :=
  match c2GoodRun with
  | .ok s => s
  | .error _ => c2Start

/-- The leaf list of the loaded accumulator. -/
def accumulatorLeaves (s : MTState) : Option (List HashVal) :=
  ((loadMerkleTree s).1).map leavesOfRecords

/-! ## Theorems -/

theorem HashVal.code_injective : ∀ a b : HashVal, a.code = b.code → a = b := by
  intro a
  induction a with
  | leafHash u t =>
    intro b h
    cases b <;> simp [HashVal.code, Nat.pair_eq_pair] at h
    simp [h]
  | nodeHash x y ihx ihy =>
    intro b h
    cases b <;> simp [HashVal.code, Nat.pair_eq_pair] at h
    rw [ihx _ h.1, ihy _ h.2]
  | raw n =>
    intro b h
    cases b <;> simp [HashVal.code, Nat.pair_eq_pair] at h
    simp [h]

theorem hashPair_comm (a b : HashVal) : hashPair a b = hashPair b a := by
  unfold hashPair
  rcases Nat.lt_or_ge a.code b.code with h | h
  · rw [if_pos (Nat.le_of_lt h), if_neg (by omega)]
  · rcases Nat.lt_or_ge b.code a.code with h2 | h2
    · rw [if_neg (by omega), if_pos (Nat.le_of_lt h2)]
    · have : a = b := HashVal.code_injective a b (by omega)
      subst this
      rfl

theorem hashPair_ne_raw (a b : HashVal) (n : Nat) : hashPair a b ≠ .raw n := by
  unfold hashPair
  split <;> simp

theorem MerkleProof.processProof_ne_raw (proof : List HashVal)
    (leaf : HashVal) (n : Nat) (h : leaf ≠ .raw n) :
    processProof proof leaf ≠ .raw n := by
  induction proof generalizing leaf with
  | nil => exact h
  | cons p ps ih =>
    simp only [processProof, List.foldl_cons] at *
    exact ih (hashPair leaf p) (hashPair_ne_raw _ _ _)

theorem treeNodeF_fuel (leaves : List HashVal) :
    ∀ f g j, leaves.length ≤ f + j → 1 ≤ f →
      leaves.length ≤ g + j → 1 ≤ g →
      treeNodeF leaves f j = treeNodeF leaves g j := by
  intro f
  induction f with
  | zero => omega
  | succ f ih =>
    intro g j hfj _ hgj hg
    match g, hg with
    | g + 1, _ =>
      by_cases hleaf : leaves.length ≤ j + 1
      · simp only [treeNodeF, if_pos hleaf]
      · simp only [treeNodeF, if_neg hleaf]
        have h1 : leaves.length ≤ f + (2 * j + 1) := by omega
        have h2 : leaves.length ≤ f + (2 * j + 2) := by omega
        have hf1 : 1 ≤ f := by omega
        have hg1 : 1 ≤ g := by omega
        rw [ih g (2 * j + 1) h1 hf1 (by omega) hg1,
            ih g (2 * j + 2) h2 hf1 (by omega) hg1]

theorem treeNode_leaf (leaves : List HashVal) (j : Nat)
    (h : leaves.length ≤ j + 1) :
    treeNode leaves j = leaves.getD (2 * leaves.length - 2 - j) (.raw 0) := by
  simp only [treeNode, treeNodeF, if_pos h]

theorem treeNodeF_succ (leaves : List HashVal) (f j : Nat) :
    treeNodeF leaves (f + 1) j =
      if leaves.length ≤ j + 1 then
        leaves.getD (2 * leaves.length - 2 - j) (.raw 0)
      else
        hashPair (treeNodeF leaves f (2 * j + 1))
          (treeNodeF leaves f (2 * j + 2)) := rfl

theorem treeNode_internal (leaves : List HashVal) (j : Nat)
    (h : j + 1 < leaves.length) :
    treeNode leaves j =
      hashPair (treeNode leaves (2 * j + 1)) (treeNode leaves (2 * j + 2)) := by
  have hn : ¬ leaves.length ≤ j + 1 := by omega
  rw [treeNode, treeNodeF_succ, if_neg hn,
      treeNodeF_fuel leaves leaves.length (leaves.length + 1) (2 * j + 1)
        (by omega) (by omega) (by omega) (by omega),
      treeNodeF_fuel leaves leaves.length (leaves.length + 1) (2 * j + 2)
        (by omega) (by omega) (by omega) (by omega)]
  rfl

theorem proofFromF_fuel (leaves : List HashVal) :
    ∀ f g j, j < f → j < g →
      proofFromF leaves f j = proofFromF leaves g j := by
  intro f
  induction f with
  | zero => omega
  | succ f ih =>
    intro g j hf hg
    match g, hg with
    | g + 1, _ =>
      by_cases h0 : j = 0
      · simp only [proofFromF, if_pos h0]
      · simp only [proofFromF, if_neg h0]
        rw [ih g ((j - 1) / 2) (by omega) (by omega)]

theorem proofFromF_succ (leaves : List HashVal) (f j : Nat) :
    proofFromF leaves (f + 1) j =
      if j = 0 then []
      else
        treeNode leaves (if j % 2 = 1 then j + 1 else j - 1) ::
          proofFromF leaves f ((j - 1) / 2) := rfl

theorem processProof_cons (a leaf : HashVal) (rest : List HashVal) :
    MerkleProof.processProof (a :: rest) leaf =
      MerkleProof.processProof rest (hashPair leaf a) := rfl

/-- Climbing lemma: the sibling path from any tree index folds back to the
root. -/
theorem processProof_proofFrom (leaves : List HashVal) :
    ∀ j, j ≤ 2 * leaves.length - 2 → 1 ≤ leaves.length →
      MerkleProof.processProof (proofFrom leaves j) (treeNode leaves j) =
        treeNode leaves 0 := by
  intro j
  induction j using Nat.strong_induction_on with
  | _ j ih =>
    intro hj hn
    by_cases h0 : j = 0
    · subst h0; rfl
    · have hn2 : 2 ≤ leaves.length := by omega
      set p := (j - 1) / 2 with hpdef
      have hpn : p + 1 < leaves.length := by omega
      have hpj : p < j := by omega
      have hstep : proofFrom leaves j =
          treeNode leaves (if j % 2 = 1 then j + 1 else j - 1) ::
            proofFrom leaves p := by
        rw [proofFrom, proofFromF_succ, if_neg h0,
            proofFromF_fuel leaves j (p + 1) p (by omega) (by omega)]
        rfl
      rw [hstep, processProof_cons]
      have hroot := ih p hpj (by omega) hn
      by_cases hpar : j % 2 = 1
      · have hj1 : 2 * p + 1 = j := by omega
        have hs : (if j % 2 = 1 then j + 1 else j - 1) = 2 * p + 2 := by
          rw [if_pos hpar]; omega
        rw [hs, ← hj1, ← treeNode_internal leaves p hpn, hroot]
      · have hj1 : 2 * p + 2 = j := by omega
        have hs : (if j % 2 = 1 then j + 1 else j - 1) = 2 * p + 1 := by
          rw [if_neg hpar]; omega
        rw [hs, hashPair_comm, ← hj1, ← treeNode_internal leaves p hpn,
            hroot]

theorem insertHashed_perm (p : Nat × HashVal) (l : List (Nat × HashVal)) :
    List.Perm (insertHashed p l) (p :: l) := by
  induction l with
  | nil => simp [insertHashed]
  | cons q qs ih =>
    by_cases h : p.2.code ≤ q.2.code
    · simp [insertHashed, h]
    · simp only [insertHashed, if_neg h]
      exact (ih.cons q).trans (List.Perm.swap p q qs)

theorem sortHashed_perm (l : List (Nat × HashVal)) :
    List.Perm (sortHashed l) l := by
  induction l with
  | nil => simp [sortHashed]
  | cons p ps ih =>
    exact (insertHashed_perm p (sortHashed ps)).trans (ih.cons p)

theorem sortedPairs_perm (values : List (Nat × Nat)) :
    List.Perm (sortedPairs values) ((values.map standardLeafHash).enum) :=
  sortHashed_perm _

theorem sortedPairs_length (values : List (Nat × Nat)) :
    (sortedPairs values).length = values.length := by
  rw [(sortedPairs_perm values).length_eq, List.enum_length,
      List.length_map]

theorem sortedLeaves_length (values : List (Nat × Nat)) :
    (sortedLeaves values).length = values.length := by
  rw [sortedLeaves, List.length_map, sortedPairs_length]

theorem sortedPairs_fst_nodup (values : List (Nat × Nat)) :
    ((sortedPairs values).map Prod.fst).Nodup := by
  have hp := (sortedPairs_perm values).map Prod.fst
  rw [hp.nodup_iff, List.enum_map_fst]
  exact List.nodup_range _

theorem eq_of_fst_nodup {α β : Type} {l : List (α × β)}
    (h : (l.map Prod.fst).Nodup) {a b : α × β}
    (ha : a ∈ l) (hb : b ∈ l) (hab : a.1 = b.1) : a = b := by
  induction l with
  | nil => cases ha
  | cons q qs ih =>
    rw [List.map_cons, List.nodup_cons] at h
    rcases List.mem_cons.mp ha with ha1 | ha1 <;>
      rcases List.mem_cons.mp hb with hb1 | hb1
    · rw [ha1, hb1]
    · exfalso
      apply h.1
      have hm : b.1 ∈ qs.map Prod.fst := List.mem_map_of_mem Prod.fst hb1
      rwa [← hab, ha1] at hm
    · exfalso
      apply h.1
      have hm : a.1 ∈ qs.map Prod.fst := List.mem_map_of_mem Prod.fst ha1
      rwa [hab, hb1] at hm
    · exact ih h.2 ha1 hb1

theorem mem_sortedPairs (values : List (Nat × Nat)) (i : Nat)
    (h : i < values.length) :
    (i, standardLeafHash (values.getD i (0, 0))) ∈ sortedPairs values := by
  rw [(sortedPairs_perm values).mem_iff, List.mk_mem_enum_iff_getElem?]
  rw [List.getElem?_map, List.getElem?_eq_getElem h,
      List.getD_eq_getElem values (0, 0) h]
  rfl

theorem treeIndexOfValue_le (values : List (Nat × Nat)) (i : Nat) :
    treeIndexOfValue values i ≤ 2 * values.length - 2 := by
  unfold treeIndexOfValue
  omega

/-- The tree node at a value's stored tree index is that value's leaf
hash. -/
theorem treeNode_treeIndexOfValue (values : List (Nat × Nat)) (i : Nat)
    (h : i < values.length) :
    treeNode (sortedLeaves values) (treeIndexOfValue values i) =
      standardLeafHash (values.getD i (0, 0)) := by
  have hmem := mem_sortedPairs values i h
  have hk : (sortedPairs values).findIdx (fun q => q.1 = i) <
      (sortedPairs values).length :=
    List.findIdx_lt_length_of_exists ⟨_, hmem, by simp⟩
  set k := (sortedPairs values).findIdx (fun q => q.1 = i) with hkdef
  have hklen : k < values.length := by
    rw [← sortedPairs_length values]; exact hk
  have hget : (sortedPairs values)[k] = (i, standardLeafHash
      (values.getD i (0, 0))) := by
    apply eq_of_fst_nodup (sortedPairs_fst_nodup values)
      (List.getElem_mem hk) hmem
    have := List.findIdx_getElem (w := hk)
    simpa using this
  have hleafidx : values.length ≤ treeIndexOfValue values i + 1 := by
    unfold treeIndexOfValue
    omega
  rw [treeNode_leaf _ _ (by rwa [sortedLeaves_length]),
      sortedLeaves_length]
  have hback : 2 * values.length - 2 - treeIndexOfValue values i = k := by
    unfold treeIndexOfValue
    omega
  rw [hback, sortedLeaves]
  rw [List.getD_eq_getElem _ _ (by rwa [List.length_map, sortedPairs_length]),
      List.getElem_map, hget]

/-- Round-trip correctness of the tree library: the proof returned by
`tree.getProof(i)` validates the `i`-th value's leaf against `tree.root`. -/
theorem getProofOfValues_valid (values : List (Nat × Nat)) (i : Nat)
    (h : i < values.length) :
    MerkleProof.processProof (getProofOfValues values i)
      (standardLeafHash (values.getD i (0, 0))) = rootOfValues values := by
  rw [getProofOfValues, ← treeNode_treeIndexOfValue values i h, rootOfValues]
  exact processProof_proofFrom (sortedLeaves values) (treeIndexOfValue values i)
    (by rw [sortedLeaves_length]; exact treeIndexOfValue_le values i)
    (by rw [sortedLeaves_length]; omega)

/-! ## Theorems for the claims -/
theorem any_eq_true_of_mem {values : List (Nat × Nat)} {user tid : Nat}
    (h : (user, tid) ∈ values) :
    values.any (fun e => e.1 = user ∧ e.2 = tid) = true := by
  rw [List.any_eq_true]
  exact ⟨(user, tid), h, by simp⟩

theorem assignCredential_dup (st : CMState) (caller user tid : Nat)
    (h1 : caller = st.owner) (h2 : tid < st.credentialTypes.length)
    (h3 : st.userCredentials user tid = true) :
    assignCredential caller user tid st = .error .duplicateAssignment := by
  have hno : ¬ caller ≠ st.owner := by simp [h1]
  have hv : ¬ ¬ isValidCredentialTypeId st tid = true := by
    simp only [isValidCredentialTypeId, decide_eq_true_eq, not_not]
    omega
  simp only [assignCredential, if_neg hno, if_neg hv, if_pos h3]

/-- C3: `assignCredential` rejects non-authority callers with
`Unauthorized`, unknown type ids with `UnknownCredentialType`, already
recorded pairs with `DuplicateAssignment`; on success it appends the
record, `has` becomes true, and an identical second assignment fails with
`DuplicateAssignment`. -/
theorem assignCredential_spec (st : CMState) (caller user tid : Nat) :
    (caller ≠ st.owner →
      assignCredential caller user tid st = .error .unauthorized) ∧
    (caller = st.owner → st.credentialTypes.length ≤ tid →
      assignCredential caller user tid st = .error .unknownCredentialType) ∧
    (caller = st.owner → tid < st.credentialTypes.length →
      st.userCredentials user tid = true →
      assignCredential caller user tid st = .error .duplicateAssignment) ∧
    (caller = st.owner → tid < st.credentialTypes.length →
      st.userCredentials user tid = false →
      ∃ st', assignCredential caller user tid st = .ok st' ∧
        st'.userCredentials user tid = true ∧
        st'.userCredentialList user = st.userCredentialList user ++ [tid] ∧
        (∀ u, u ≠ user → st'.userCredentialList u = st.userCredentialList u) ∧
        assignCredential caller user tid st' = .error .duplicateAssignment) := by
  refine ⟨?_, ?_, ?_, ?_⟩
  · intro h
    simp only [assignCredential, if_pos h]
  · intro h1 h2
    have hno : ¬ caller ≠ st.owner := by simp [h1]
    have hv : ¬ isValidCredentialTypeId st tid = true := by
      simp only [isValidCredentialTypeId, decide_eq_true_eq]
      omega
    simp only [assignCredential, if_neg hno, if_pos hv]
  · intro h1 h2 h3
    exact assignCredential_dup st caller user tid h1 h2 h3
  · intro h1 h2 h3
    have hno : ¬ caller ≠ st.owner := by simp [h1]
    have hv : ¬ ¬ isValidCredentialTypeId st tid = true := by
      simp only [isValidCredentialTypeId, decide_eq_true_eq, not_not]
      omega
    have hnd : ¬ st.userCredentials user tid = true := by simp [h3]
    refine ⟨{ st with
        userCredentials := fun u t =>
          if u = user ∧ t = tid then true else st.userCredentials u t,
        userCredentialList := fun u =>
          if u = user then st.userCredentialList u ++ [tid]
          else st.userCredentialList u }, ?_, ?_, ?_, ?_, ?_⟩
    · simp only [assignCredential, if_neg hno, if_neg hv, if_neg hnd]
    · simp
    · simp
    · intro u hu
      simp [hu]
    · exact assignCredential_dup _ caller user tid h1 h2 (by simp)

/-- C3 witness. -/
theorem assignCredential_spec_witness :
    ∃ st', assignCredential 9 5 0
        (stepOp (initState 9 100) (CMOp.create 9 [65])) = .ok st' ∧
      st'.userCredentials 5 0 = true ∧
      st'.userCredentialList 5 =
        (stepOp (initState 9 100) (CMOp.create 9 [65])).userCredentialList 5
          ++ [0] ∧
      (∀ u, u ≠ 5 →
        st'.userCredentialList u =
          (stepOp (initState 9 100)
            (CMOp.create 9 [65])).userCredentialList u) ∧
      assignCredential 9 5 0 st' = .error .duplicateAssignment :=
  (assignCredential_spec (stepOp (initState 9 100) (CMOp.create 9 [65]))
    9 5 0).2.2.2 rfl (by decide) rfl

/-- C4 counterexample: with `maxNameLength = 1`, the 2-byte name
`[200, 65]` is both longer than `maxNameLength` and non-ASCII
(`200 > 127`); the claim predicts the ASCII failure is reported, but the
contract reports the length failure ("Credential name exceeds character
limit"), because the length `require` precedes the ASCII `require`. -/
theorem name_order_counterexample :
    validCredentialTypeName (initState 0 1) [200, 65] =
        some NameErr.tooLong ∧
      validCredentialTypeName (initState 0 1) [200, 65] ≠
        some NameErr.notAscii := by
  refine ⟨rfl, ?_⟩
  intro h
  simp only [validCredentialTypeName, initState] at h
  revert h
  decide

theorem validCredentialTypeName_none (st : CMState) (name : List Nat)
    (h1 : name.length ≠ 0) (h2 : name.length ≤ st.maxNameLength)
    (h3 : ∀ b ∈ name, b ≤ 127) (h4 : _isNameTaken st name = false) :
    validCredentialTypeName st name = none := by
  have hascii : ¬ ¬ _isAscii name = true := by
    simp only [_isAscii, List.all_eq_true, decide_eq_true_eq, not_not]
    exact h3
  simp only [validCredentialTypeName, if_neg h1,
    if_neg (by omega : ¬ ¬ name.length ≤ st.maxNameLength),
    if_neg hascii]
  rw [if_neg (by rw [h4]; simp)]

/-- C4 (amended): name validation checks, in order, non-empty, then
length ≤ `maxNameLength`, then ASCII-only, then uniqueness, and reports
the reason of the first failing check; in particular a name that is both
longer than `maxNameLength` and non-ASCII reports the length failure. -/
theorem name_checks_order (st : CMState) (name : List Nat) :
    (name.length = 0 → validCredentialTypeName st name = some .empty) ∧
    (name.length ≠ 0 → st.maxNameLength < name.length →
      validCredentialTypeName st name = some .tooLong) ∧
    (name.length ≠ 0 → name.length ≤ st.maxNameLength →
      (∃ b ∈ name, 127 < b) →
      validCredentialTypeName st name = some .notAscii) ∧
    (name.length ≠ 0 → name.length ≤ st.maxNameLength →
      (∀ b ∈ name, b ≤ 127) → _isNameTaken st name = true →
      validCredentialTypeName st name = some .taken) ∧
    (name.length ≠ 0 → name.length ≤ st.maxNameLength →
      (∀ b ∈ name, b ≤ 127) → _isNameTaken st name = false →
      validCredentialTypeName st name = none) := by
  refine ⟨?_, ?_, ?_, ?_, ?_⟩
  · intro h
    simp only [validCredentialTypeName, if_pos h]
  · intro h1 h2
    simp only [validCredentialTypeName, if_neg h1,
      if_pos (by omega : ¬ name.length ≤ st.maxNameLength)]
  · intro h1 h2 h3
    have hascii : ¬ _isAscii name = true := by
      simp only [_isAscii, List.all_eq_true, decide_eq_true_eq]
      push_neg
      obtain ⟨b, hb, hgt⟩ := h3
      exact ⟨b, hb, by omega⟩
    simp only [validCredentialTypeName, if_neg h1,
      if_neg (by omega : ¬ ¬ name.length ≤ st.maxNameLength), if_pos hascii]
  · intro h1 h2 h3 h4
    have hascii : ¬ ¬ _isAscii name = true := by
      simp only [_isAscii, List.all_eq_true, decide_eq_true_eq, not_not]
      exact h3
    simp only [validCredentialTypeName, if_neg h1,
      if_neg (by omega : ¬ ¬ name.length ≤ st.maxNameLength),
      if_neg hascii, if_pos h4]
  · intro h1 h2 h3 h4
    exact validCredentialTypeName_none st name h1 h2 h3 h4

/-- C4 witness. -/
theorem name_checks_order_witness :
    validCredentialTypeName (initState 0 1) [200, 65] =
      some NameErr.tooLong :=
  (name_checks_order (initState 0 1) [200, 65]).2.1 (by decide) (by decide)

/-- C7: a fresh all-ASCII name of exactly `maxNameLength` bytes is
accepted (the factory constructor guarantees `maxNameLength > 0`); a
name of `maxNameLength + 1` bytes is rejected with a name-validation
revert; a name containing a byte above 127 is rejected with a
name-validation revert whatever its length. -/
theorem name_boundary (st : CMState) (name : List Nat) :
    (name.length = st.maxNameLength → 0 < st.maxNameLength →
      (∀ b ∈ name, b ≤ 127) → _isNameTaken st name = false →
      createCredentialType st name =
        .ok { st with credentialTypes :=
          st.credentialTypes ++ [(st.credentialTypes.length, name)] }) ∧
    (name.length = st.maxNameLength + 1 →
      ∃ r, createCredentialType st name = .error (.nameInvalid r)) ∧
    ((∃ b ∈ name, 127 < b) →
      ∃ r, createCredentialType st name = .error (.nameInvalid r)) := by
  refine ⟨?_, ?_, ?_⟩
  · intro h1 h2 h3 h4
    have hval : validCredentialTypeName st name = none :=
      validCredentialTypeName_none st name (by omega) (by omega) h3 h4
    simp only [createCredentialType, hval]
  · intro h1
    have hval : validCredentialTypeName st name = some .tooLong := by
      simp only [validCredentialTypeName, if_neg (by omega : ¬ name.length = 0),
        if_pos (by omega : ¬ name.length ≤ st.maxNameLength)]
    refine ⟨.tooLong, ?_⟩
    simp only [createCredentialType, hval]
  · intro h1
    by_cases hlen : name.length ≤ st.maxNameLength
    · have hne : name.length ≠ 0 := by
        obtain ⟨b, hb, _⟩ := h1
        intro h0
        rw [List.length_eq_zero] at h0
        subst h0
        cases hb
      have hascii : ¬ _isAscii name = true := by
        simp only [_isAscii, List.all_eq_true, decide_eq_true_eq]
        push_neg
        obtain ⟨b, hb, hgt⟩ := h1
        exact ⟨b, hb, by omega⟩
      have hval : validCredentialTypeName st name = some .notAscii := by
        simp only [validCredentialTypeName, if_neg hne,
          if_neg (by omega : ¬ ¬ name.length ≤ st.maxNameLength),
          if_pos hascii]
      refine ⟨.notAscii, ?_⟩
      simp only [createCredentialType, hval]
    · have hne : name.length ≠ 0 := by omega
      have hval : validCredentialTypeName st name = some .tooLong := by
        simp only [validCredentialTypeName, if_neg hne, if_pos hlen]
      refine ⟨.tooLong, ?_⟩
      simp only [createCredentialType, hval]

/-- C7 witness. -/
theorem name_boundary_witness :
    createCredentialType (initState 0 2) [65, 66] =
        .ok { initState 0 2 with credentialTypes := [(0, [65, 66])] } ∧
      (∃ r, createCredentialType (initState 0 2) [65, 66, 67] =
        .error (.nameInvalid r)) ∧
      (∃ r, createCredentialType (initState 0 2) [200] =
        .error (.nameInvalid r)) :=
  ⟨(name_boundary (initState 0 2) [65, 66]).1 rfl (by decide) (by decide) rfl,
   (name_boundary (initState 0 2) [65, 66, 67]).2.1 rfl,
   (name_boundary (initState 0 2) [200]).2.2 ⟨200, by simp, by omega⟩⟩

/-- C8: `setMerkleRoot` reverts with the ownable error for every caller
other than the authority, leaving the state unchanged; for the authority
it succeeds and changes only the published root, leaving every user's
assignments and the credential-type catalog untouched. -/
theorem setMerkleRoot_frame (st : CMState) (caller : Nat) (root : HashVal) :
    (caller ≠ st.owner →
      setMerkleRoot caller root st = .error .unauthorized ∧
      stepOp st (CMOp.setRoot caller root) = st) ∧
    (caller = st.owner →
      ∃ st', setMerkleRoot caller root st = .ok st' ∧
        st'.merkleRoot = root ∧
        (∀ u t, st'.userCredentials u t = st.userCredentials u t) ∧
        (∀ u, st'.userCredentialList u = st.userCredentialList u) ∧
        st'.credentialTypes = st.credentialTypes ∧
        st'.owner = st.owner ∧
        st'.maxNameLength = st.maxNameLength) := by
  constructor
  · intro h
    constructor
    · simp only [setMerkleRoot, if_pos h]
    · simp only [stepOp, execOp, setMerkleRoot, if_pos h]
  · intro h
    refine ⟨{ st with merkleRoot := root }, ?_, rfl, fun _ _ => rfl,
      fun _ => rfl, rfl, rfl, rfl⟩
    simp only [setMerkleRoot, if_neg (by simp [h] : ¬ caller ≠ st.owner)]

/-- C8 witness. -/
theorem setMerkleRoot_frame_witness :
    setMerkleRoot 4 (HashVal.raw 7) (initState 3 5) =
        .error .unauthorized ∧
      stepOp (initState 3 5) (CMOp.setRoot 4 (HashVal.raw 7)) =
        initState 3 5 :=
  (setMerkleRoot_frame (initState 3 5) 4 (HashVal.raw 7)).1 (by decide)

theorem stepOp_owner_root (st : CMState) (op : CMOp) :
    (stepOp st op).owner = st.owner ∧
    ((∀ c r, op = CMOp.setRoot c r → c ≠ st.owner) →
      (stepOp st op).merkleRoot = st.merkleRoot) := by
  cases op with
  | create caller name =>
    simp only [stepOp, execOp, managerCreateCredentialType,
      createCredentialType]
    by_cases hc : caller ≠ st.owner
    · rw [if_pos hc]
      exact ⟨rfl, fun _ => rfl⟩
    · rw [if_neg hc]
      cases hv : validCredentialTypeName st name with
      | some r => exact ⟨rfl, fun _ => rfl⟩
      | none => exact ⟨rfl, fun _ => rfl⟩
  | assign caller user tid =>
    simp only [stepOp, execOp, assignCredential]
    by_cases hc : caller ≠ st.owner
    · rw [if_pos hc]
      exact ⟨rfl, fun _ => rfl⟩
    · rw [if_neg hc]
      by_cases hv : ¬ isValidCredentialTypeId st tid = true
      · rw [if_pos hv]
        exact ⟨rfl, fun _ => rfl⟩
      · rw [if_neg hv]
        by_cases hd : st.userCredentials user tid = true
        · rw [if_pos hd]
          exact ⟨rfl, fun _ => rfl⟩
        · rw [if_neg hd]
          exact ⟨rfl, fun _ => rfl⟩
  | setRoot caller root =>
    simp only [stepOp, execOp, setMerkleRoot]
    by_cases hc : caller ≠ st.owner
    · rw [if_pos hc]
      exact ⟨rfl, fun _ => rfl⟩
    · rw [if_neg hc]
      refine ⟨rfl, fun h => absurd (h caller root rfl) hc⟩

theorem runOps_noPublish (o m : Nat) (ops : List CMOp)
    (h : noPublish o ops = true) :
    (runOps (initState o m) ops).owner = o ∧
    (runOps (initState o m) ops).merkleRoot = .raw 0 := by
  suffices hgen : ∀ (st : CMState), st.owner = o → st.merkleRoot = .raw 0 →
      noPublish o ops = true →
      (runOps st ops).owner = o ∧ (runOps st ops).merkleRoot = .raw 0 by
    exact hgen (initState o m) rfl rfl h
  clear h
  induction ops with
  | nil => intro st h1 h2 _; exact ⟨h1, h2⟩
  | cons op ops ih =>
    intro st h1 h2 h3
    rw [noPublish, List.all_cons, Bool.and_eq_true] at h3
    have hone := stepOp_owner_root st op
    have howner : (stepOp st op).owner = o := by rw [hone.1, h1]
    have hroot : (stepOp st op).merkleRoot = .raw 0 := by
      rw [hone.2, h2]
      intro c r hop
      subst hop
      simp only [decide_eq_true_eq] at h3
      rw [h1]
      exact h3.1
    exact ih (stepOp st op) howner hroot (by
      rw [noPublish]
      exact h3.2)

/-- C1: on-chain `verifyCredential` returns `true` exactly when the
ledger records the pair AND the proof validates the double-hash leaf
against the currently stored root; it returns `false` (it cannot revert)
whenever the pair is not recorded, and in every state reachable without
the authority ever publishing a root (where the root is still
`bytes32(0)`, which no proof can match). -/
theorem verifyCredential_correct (st : CMState) (user tid : Nat)
    (proof : List HashVal) (o m : Nat) (ops : List CMOp) :
    (verifyCredential st user tid proof = true ↔
      (st.userCredentials user tid = true ∧
        MerkleProof.verify proof st.merkleRoot (credLeaf user tid) = true)) ∧
    (st.userCredentials user tid = false →
      verifyCredential st user tid proof = false) ∧
    (noPublish o ops = true →
      verifyCredential (runOps (initState o m) ops) user tid proof =
        false) := by
  refine ⟨?_, ?_, ?_⟩
  · simp [verifyCredential]
  · intro h
    simp [verifyCredential, h]
  · intro h
    have hroot := (runOps_noPublish o m ops h).2
    have hne : MerkleProof.processProof proof (credLeaf user tid) ≠
        .raw 0 :=
      MerkleProof.processProof_ne_raw proof _ 0 (by simp [credLeaf])
    simp only [verifyCredential, MerkleProof.verify, hroot,
      Bool.and_eq_false_iff]
    right
    simp [hne]

/-- C1 witness. -/
theorem verifyCredential_correct_witness :
    verifyCredential
        (runOps (initState 3 5) [CMOp.setRoot 4 (HashVal.raw 9)]) 1 0 [] =
      false :=
  (verifyCredential_correct
    (runOps (initState 3 5) [CMOp.setRoot 4 (HashVal.raw 9)]) 1 0 [] 3 5
    [CMOp.setRoot 4 (HashVal.raw 9)]).2.2 (by decide)

theorem isNameTaken_false_of_fresh (st : CMState) (name : List Nat)
    (h : name ∉ st.credentialTypes.map Prod.snd) :
    _isNameTaken st name = false := by
  rw [_isNameTaken, List.any_eq_false]
  intro ct hct
  simp only [decide_eq_true_eq]
  intro heq
  exact h (heq ▸ List.mem_map_of_mem Prod.snd hct)

theorem runOps_create (o m : Nat) (names : List (List Nat)) :
    ∀ st : CMState, st.owner = o → st.maxNameLength = m →
      (∀ nm ∈ names, nm.length ≠ 0 ∧ nm.length ≤ m ∧ ∀ b ∈ nm, b ≤ 127) →
      (∀ nm ∈ names, nm ∉ st.credentialTypes.map Prod.snd) →
      names.Nodup →
      (runOps st (names.map (fun nm => CMOp.create o nm))).credentialTypes =
        st.credentialTypes ++
          names.enumFrom st.credentialTypes.length := by
  induction names with
  | nil =>
    intro st _ _ _ _ _
    simp [runOps, List.enumFrom]
  | cons nm ns ih =>
    intro st howner hmax hvalid hfresh hnodup
    have hval : validCredentialTypeName st nm = none := by
      obtain ⟨h1, h2, h3⟩ := hvalid nm (by simp)
      exact validCredentialTypeName_none st nm h1 (by omega) h3
        (isNameTaken_false_of_fresh st nm (hfresh nm (by simp)))
    have hstep : stepOp st (CMOp.create o nm) =
        { st with credentialTypes :=
            st.credentialTypes ++ [(st.credentialTypes.length, nm)] } := by
      simp only [stepOp, execOp, managerCreateCredentialType,
        if_neg (by simp [howner] : ¬ o ≠ st.owner), createCredentialType,
        hval]
    rw [List.map_cons]
    show (runOps (stepOp st (CMOp.create o nm))
        (ns.map (fun nm => CMOp.create o nm))).credentialTypes = _
    rw [hstep]
    have hih := ih { st with credentialTypes :=
        st.credentialTypes ++ [(st.credentialTypes.length, nm)] }
      howner hmax
      (fun nm2 h2 => hvalid nm2 (by simp [h2]))
      (by
        intro nm2 h2
        simp only [List.map_append, List.mem_append]
        rintro (hin | hin)
        · exact hfresh nm2 (by simp [h2]) hin
        · simp only [List.map_cons, List.map_nil, List.mem_singleton] at hin
          rw [List.nodup_cons] at hnodup
          exact hnodup.1 (hin ▸ h2))
      (List.nodup_cons.mp hnodup).2
    rw [hih]
    rw [show (st.credentialTypes ++
        [(st.credentialTypes.length, nm)]).length =
      st.credentialTypes.length + 1 by simp]
    rw [List.append_assoc]
    rfl

/-- C6: creating `n` distinct valid names from a fresh deployment yields
exactly the catalog `[(0, name0), …, (n-1, name(n-1))]` — dense,
zero-based ids in creation order — and every successful creation assigns
the id `catalog.size` at the moment of creation. -/
theorem create_ids_dense (o m : Nat) (names : List (List Nat))
    (hvalid : ∀ nm ∈ names,
      nm.length ≠ 0 ∧ nm.length ≤ m ∧ ∀ b ∈ nm, b ≤ 127)
    (hnodup : names.Nodup) :
    (runOps (initState o m)
        (names.map (fun nm => CMOp.create o nm))).credentialTypes =
      names.enum ∧
    (runOps (initState o m)
        (names.map (fun nm => CMOp.create o nm))).credentialTypes.map
      Prod.fst = List.range names.length ∧
    (∀ (st st' : CMState) (nm : List Nat),
      createCredentialType st nm = .ok st' →
      st'.credentialTypes =
        st.credentialTypes ++ [(st.credentialTypes.length, nm)]) := by
  have hrun := runOps_create o m names (initState o m) rfl rfl hvalid
    (by intro nm _ h; simp [initState] at h) hnodup
  have hrun2 : (runOps (initState o m)
      (names.map (fun nm => CMOp.create o nm))).credentialTypes =
      names.enum := hrun.trans (by rfl)
  refine ⟨hrun2, ?_, ?_⟩
  · rw [hrun2]
    exact List.enum_map_fst names
  · intro st st' nm h
    cases hv : validCredentialTypeName st nm with
    | some r => simp [createCredentialType, hv] at h
    | none =>
      simp only [createCredentialType, hv, Except.ok.injEq] at h
      rw [← h]

/-- C6 witness. -/
theorem create_ids_dense_witness :
    (runOps (initState 9 100)
        (([[65], [66]] : List (List Nat)).map
          (fun nm => CMOp.create 9 nm))).credentialTypes =
      ([[65], [66]] : List (List Nat)).enum :=
  (create_ids_dense 9 100 [[65], [66]] (by decide) (by decide)).1

theorem ledgerInv_init (o m : Nat) : ledgerInv (initState o m) := by
  refine ⟨fun u => List.nodup_nil, fun u t => by simp [initState],
    fun u t h => absurd h (by simp [initState]), fun i h => ?_⟩
  simp [initState] at h

theorem ledgerInv_createOk (st st' : CMState) (name : List Nat)
    (h : createCredentialType st name = .ok st') (hinv : ledgerInv st) :
    ledgerInv st' := by
  cases hv : validCredentialTypeName st name with
  | some r => simp [createCredentialType, hv] at h
  | none =>
    simp only [createCredentialType, hv, Except.ok.injEq] at h
    obtain ⟨h1, h2, h3, h4⟩ := hinv
    subst h
    refine ⟨h1, h2, fun u t ht => ?_, fun i hi => ?_⟩
    · have := h3 u t ht
      simp only [List.length_append, List.length_cons, List.length_nil]
      omega
    · simp only [List.length_append, List.length_cons, List.length_nil] at hi
      by_cases hlt : i < st.credentialTypes.length
      · have := h4 i hlt
        rw [List.get_eq_getElem, List.getElem_append_left hlt]
        exact this
      · have hieq : i = st.credentialTypes.length := by omega
        subst hieq
        rw [List.get_eq_getElem, List.getElem_append_right (le_refl _)]
        simp

theorem ledgerInv_assignOk (st st' : CMState) (caller user tid : Nat)
    (h : assignCredential caller user tid st = .ok st')
    (hinv : ledgerInv st) : ledgerInv st' := by
  by_cases hc : caller ≠ st.owner
  · simp [assignCredential, if_pos hc] at h
  by_cases hv : ¬ isValidCredentialTypeId st tid = true
  · simp only [assignCredential] at h
    rw [if_neg hc, if_pos hv] at h
    exact Except.noConfusion h
  by_cases hd : st.userCredentials user tid = true
  · simp only [assignCredential] at h
    rw [if_neg hc, if_neg hv, if_pos hd] at h
    exact Except.noConfusion h
  simp only [assignCredential, if_neg hc, if_neg hv, if_neg hd,
    Except.ok.injEq] at h
  obtain ⟨h1, h2, h3, h4⟩ := hinv
  have htid : tid < st.credentialTypes.length := by
    simp only [isValidCredentialTypeId, decide_eq_true_eq, not_not] at hv
    exact hv
  have hnotmem : tid ∉ st.userCredentialList user := by
    intro hmem
    exact hd ((h2 user tid).mp hmem)
  subst h
  refine ⟨fun u => ?_, fun u t => ?_, fun u t ht => ?_, h4⟩
  · by_cases hu : u = user
    · subst hu
      have hnd : (st.userCredentialList u ++ [tid]).Nodup := by
        rw [List.nodup_append]
        exact ⟨h1 u, List.nodup_singleton tid, by
          intro a ha hb
          simp only [List.mem_singleton] at hb
          exact hnotmem (hb ▸ ha)⟩
      simpa using hnd
    · simpa [hu] using h1 u
  · by_cases hu : u = user
    · subst hu
      by_cases ht : t = tid
      · subst ht
        simp
      · simpa [ht] using h2 u t
    · simpa [hu] using h2 u t
  · by_cases hu : u = user
    · subst hu
      simp at ht
      rcases ht with hin | hin
      · exact h3 u t hin
      · exact hin ▸ htid
    · simp only [if_neg hu] at ht
      exact h3 u t ht

theorem ledgerInv_step (st : CMState) (op : CMOp) (hinv : ledgerInv st) :
    ledgerInv (stepOp st op) := by
  cases op with
  | create caller name =>
    simp only [stepOp, execOp, managerCreateCredentialType]
    by_cases hc : caller ≠ st.owner
    · rw [if_pos hc]
      exact hinv
    · rw [if_neg hc]
      cases hcr : createCredentialType st name with
      | ok st' => exact ledgerInv_createOk st st' name hcr hinv
      | error e => exact hinv
  | assign caller user tid =>
    simp only [stepOp, execOp]
    cases ha : assignCredential caller user tid st with
    | ok st' => exact ledgerInv_assignOk st st' caller user tid ha hinv
    | error e => exact hinv
  | setRoot caller root =>
    simp only [stepOp, execOp, setMerkleRoot]
    by_cases hc : caller ≠ st.owner
    · rw [if_pos hc]
      exact hinv
    · rw [if_neg hc]
      exact hinv

theorem ledgerInv_runOps (o m : Nat) (ops : List CMOp) :
    ledgerInv (runOps (initState o m) ops) := by
  suffices hgen : ∀ (st : CMState), ledgerInv st →
      ledgerInv (runOps st ops) from hgen _ (ledgerInv_init o m)
  induction ops with
  | nil => exact fun st h => h
  | cons op ops ih =>
    intro st h
    exact ih (stepOp st op) (ledgerInv_step st op h)

theorem mapM_getCredentialType (st : CMState) (l : List Nat)
    (hval : ∀ t ∈ l, t < st.credentialTypes.length)
    (hcat : ∀ i (h : i < st.credentialTypes.length),
      (st.credentialTypes.get ⟨i, h⟩).1 = i) :
    l.mapM (getCredentialType st) =
      .ok (l.map (fun t => (t, nameOf st t))) := by
  induction l with
  | nil => rfl
  | cons a l ih =>
    have ha : a < st.credentialTypes.length := hval a (by simp)
    have hga : getCredentialType st a = .ok (a, nameOf st a) := by
      simp only [getCredentialType, dif_pos ha]
      have h1 := hcat a ha
      have h2 : nameOf st a = (st.credentialTypes.get ⟨a, ha⟩).2 := by
        rw [nameOf, List.getD_eq_getElem _ _ ha, List.get_eq_getElem]
      rw [Except.ok.injEq]
      exact Prod.ext h1 h2.symm
    rw [List.mapM_cons, hga, ih (fun t ht => hval t (by simp [ht]))]
    rfl

/-- C9: in every reachable contract state, an id is in a user's ordered
assignment list exactly when the membership map marks it, the list has no
duplicates (each assigned id is counted exactly once), and
`getUserCredentialsTypes` resolves without error to the listed types, in
assignment order. -/
theorem ledger_invariant (o m : Nat) (ops : List CMOp) (u t : Nat) :
    ((t ∈ (runOps (initState o m) ops).userCredentialList u) ↔
      (runOps (initState o m) ops).userCredentials u t = true) ∧
    ((runOps (initState o m) ops).userCredentialList u).Nodup ∧
    (((runOps (initState o m) ops).userCredentialList u).count t =
      if (runOps (initState o m) ops).userCredentials u t then 1 else 0) ∧
    (getUserCredentialsTypes (runOps (initState o m) ops) u =
      .ok (((runOps (initState o m) ops).userCredentialList u).map
        (fun i => (i, nameOf (runOps (initState o m) ops) i)))) := by
  obtain ⟨h1, h2, h3, h4⟩ := ledgerInv_runOps o m ops
  refine ⟨h2 u t, h1 u, ?_, ?_⟩
  · by_cases hc : (runOps (initState o m) ops).userCredentials u t = true
    · rw [if_pos hc]
      have hmem := (h2 u t).mpr hc
      have hle := List.nodup_iff_count_le_one.mp (h1 u) t
      have hge := List.count_pos_iff.mpr hmem
      omega
    · rw [if_neg hc]
      rw [List.count_eq_zero]
      intro hmem
      exact hc ((h2 u t).mp hmem)
  · exact mapM_getCredentialType _ _ (h3 u) h4

theorem loadMerkleTree_cache (s : MTState) (values : List (Nat × Nat))
    (h : s.cache = some values) : loadMerkleTree s = (some values, s) := by
  cases hf : s.file with
  | none => simp [loadMerkleTree, hf, h]
  | some v => simp [loadMerkleTree, hf, h]

/-- C2 (amended): the `getProof`-then-`verifyCredential` round trip
succeeds exactly for the records whose `credentialTypeId` equals their
index in the accumulator's entry list (because `getProof` passes the id
to the tree library as a value index): for such a record, once the root
of the current entry list is published and the ledger records the pair,
the contract accepts the returned proof — also through the controller's
`verifyCredential` route. -/
theorem roundTrip_entryIndexed (cm : CMState) (values : List (Nat × Nat))
    (user tid : Nat)
    (hroot : cm.merkleRoot = rootOfValues values)
    (hmem : cm.userCredentials user tid = true)
    (hlen : tid < values.length)
    (hentry : values.getD tid (0, 0) = (user, tid)) :
    verifyCredential cm user tid (getProofOfValues values tid) = true ∧
    (∀ s : SysState, s.mt.cache = some values → s.cm = cm →
      controllerVerifyCredential user tid s = .ok true) := by
  have hverify : verifyCredential cm user tid
      (getProofOfValues values tid) = true := by
    have hleaf : credLeaf user tid =
        standardLeafHash (values.getD tid (0, 0)) := by
      rw [hentry]
      rfl
    simp only [verifyCredential, hmem, Bool.true_and, MerkleProof.verify,
      hroot, hleaf, getProofOfValues_valid values tid hlen]
    simp
  refine ⟨hverify, ?_⟩
  intro s hcache hcm
  have hgp : getProof tid s.mt = .ok (getProofOfValues values tid, s.mt) := by
    rw [getProof, loadMerkleTree_cache s.mt values hcache]
    exact if_pos hlen
  rw [controllerVerifyCredential, hgp]
  show Except.ok (verifyCredential s.cm user tid
      (getProofOfValues values tid)) = .ok true
  rw [hcm, hverify]

/-- C2 counterexample: deploy with authority 9, create types "A"(0) and
"B"(1), then assign (user 5, type 1) and (user 5, type 0) through the
controller.  Both sync steps complete: the ledger records (5, 0), the
accumulator holds entries `[(5,1), (5,0)]` and the root was just
republished — yet `verifyCredential(5, 0)` through the controller
returns `false`, because `getProof(0)` returns the proof of *entry 0*,
which is the record (5, 1), not (5, 0).  The claim predicts `true` for
every recorded pair. -/
theorem roundTrip_claim_counterexample :
    c2Run = .ok c2Final ∧
    c2Final.cm.userCredentials 5 0 = true ∧
    c2Final.mt.cache = some [(5, 1), (5, 0)] ∧
    c2Final.cm.merkleRoot = rootOfValues [(5, 1), (5, 0)] ∧
    controllerVerifyCredential 5 0 c2Final = .ok false :=
  ⟨rfl, rfl, rfl, rfl, rfl⟩

/-- C2 witness (entry-indexed record: type 1 was the second entry). -/
theorem roundTrip_entryIndexed_witness :
    verifyCredential c2Good.cm 5 1 (getProofOfValues [(5, 0), (5, 1)] 1) =
      true :=
  (roundTrip_entryIndexed c2Good.cm [(5, 0), (5, 1)] 5 1 rfl rfl
    (by decide) rfl).1

/-- C5: `reconcile` (modelled from the spec, §4.5) over a fixed record
list always publishes `rootOfValues records`; run twice in succession
with no intervening assignment, the second run returns the same root and
leaves the accumulator with the same persisted state and the same leaf
list as the first. -/
theorem reconcile_deterministic (records : List (Nat × Nat))
    (s s1 : SysState) (root1 : HashVal)
    (h1 : reconcile records s = .ok (root1, s1)) :
    root1 = rootOfValues records ∧
    accumulatorLeaves s1.mt = some (leavesOfRecords records) ∧
    s1.cm.merkleRoot = root1 ∧
    ∃ s2, reconcile records s1 = .ok (root1, s2) ∧
      s2.mt = s1.mt ∧
      accumulatorLeaves s2.mt = accumulatorLeaves s1.mt ∧
      s2.cm.merkleRoot = root1 := by
  simp only [reconcile, setMerkleRoot] at h1
  rw [if_neg (show ¬ s.cm.owner ≠ s.cm.owner by simp)] at h1
  replace h1 : (Except.ok (rootOfValues records,
      ({ cm := { s.cm with merkleRoot := rootOfValues records },
         mt := { cache := some records, file := some records } } :
        SysState)) : Except SysErr (HashVal × SysState)) =
      .ok (root1, s1) := h1
  rw [Except.ok.injEq, Prod.mk.injEq] at h1
  obtain ⟨hr, hs⟩ := h1
  subst hr
  subst hs
  refine ⟨rfl, ?_, rfl, ?_⟩
  · rw [accumulatorLeaves, loadMerkleTree_cache _ records rfl]
    rfl
  · have hrec2 : reconcile records
        ({ cm := { s.cm with merkleRoot := rootOfValues records },
           mt := { cache := some records, file := some records } } :
          SysState) =
        .ok (rootOfValues records,
          { cm := { s.cm with merkleRoot := rootOfValues records },
            mt := { cache := some records, file := some records } }) := by
      simp only [reconcile, setMerkleRoot]
      rw [if_neg (show ¬ s.cm.owner ≠ s.cm.owner by simp)]
    exact ⟨_, hrec2, rfl, rfl, rfl⟩

/-- C5 witness. -/
theorem reconcile_deterministic_witness :
    rootOfValues [(1, 2)] = rootOfValues [(1, 2)] ∧
    accumulatorLeaves { cache := some [(1, 2)], file := some [(1, 2)] } =
      some (leavesOfRecords [(1, 2)]) := by
  have h := reconcile_deterministic [(1, 2)]
    { cm := initState 0 1, mt := { cache := none, file := none } }
    { cm := { initState 0 1 with merkleRoot := rootOfValues [(1, 2)] },
      mt := { cache := some [(1, 2)], file := some [(1, 2)] } }
    (rootOfValues [(1, 2)]) rfl
  exact ⟨rfl, h.2.1⟩

theorem loadMerkleTree_file (s : MTState) :
    ((loadMerkleTree s).2).file = s.file := by
  rcases s with ⟨c, f⟩
  cases c <;> cases f <;> rfl

theorem loadMerkleTree_idem (s : MTState) :
    (loadMerkleTree ((loadMerkleTree s).2)).1 = (loadMerkleTree s).1 := by
  rcases s with ⟨c, f⟩
  cases c <;> cases f <;> rfl

/-- C10: when the (user, credentialTypeId) pair is already an entry of
the loaded tree, `updateMerkleTree` throws "Entry already exists in the
Merkle tree." before any mutation or write: the persisted JSON file is
exactly as before and the loaded tree observable afterwards is exactly
the one observable before. -/
theorem updateMerkleTree_atomic (user tid : Nat) (s : MTState)
    (values : List (Nat × Nat))
    (hload : (loadMerkleTree s).1 = some values)
    (hdup : (user, tid) ∈ values) :
    updateMerkleTree user tid s =
      .error (.entryExists, (loadMerkleTree s).2) ∧
    ((loadMerkleTree s).2).file = s.file ∧
    (loadMerkleTree ((loadMerkleTree s).2)).1 = (loadMerkleTree s).1 := by
  have hpair : loadMerkleTree s = (some values, (loadMerkleTree s).2) := by
    conv_lhs => rw [← Prod.mk.eta (p := loadMerkleTree s)]
    rw [hload]
  refine ⟨?_, loadMerkleTree_file s, loadMerkleTree_idem s⟩
  unfold updateMerkleTree
  rw [hpair]
  exact if_pos (any_eq_true_of_mem hdup)

/-- C10 witness. -/
theorem updateMerkleTree_atomic_witness :
    updateMerkleTree 1 2 { cache := some [(1, 2)], file := some [(1, 2)] } =
        .error (.entryExists,
          (loadMerkleTree
            { cache := some [(1, 2)], file := some [(1, 2)] }).2) ∧
      ((loadMerkleTree
          { cache := some [(1, 2)], file := some [(1, 2)] }).2).file =
        (some [(1, 2)] : Option (List (Nat × Nat))) ∧
      (loadMerkleTree
          ((loadMerkleTree
            { cache := some [(1, 2)], file := some [(1, 2)] }).2)).1 =
        (loadMerkleTree
          { cache := some [(1, 2)], file := some [(1, 2)] }).1 :=
  updateMerkleTree_atomic 1 2
    { cache := some [(1, 2)], file := some [(1, 2)] } [(1, 2)] rfl
    (by simp)
